import Mathlib

/-!
Verification of the TN_KH_PT_TP mosquito-surveillance statistics pipeline.

Shallow embedding of the analysis code:
* `src/config/analysis_config.py` — configuration constants;
* `src/core/base_analyzer.py` — `calculate_correlation`, `bonferroni_correction`;
* `src/core/data_loader.py` — `get_lag_features`;
* `src/analyzers/pca_clustering_analyzer.py` — `_perform_pca`,
  `_optimize_clustering`, `_test_cluster_outcome_relationships`;
* `src/analyzers/lag_rolling_analyzer.py` — `_analyze_lag_features`,
  `_find_optimal_lags`;
* `src/analyzers/comparison_analyzer.py` — `_identify_predictors`.

Numeric values (numpy floats) are modelled as rationals; numpy NaN is
modelled as `Option.none`; a Python exception is modelled as `Option.none`
at the function level.  External library calls (sklearn scorers, scipy
spearmanr and kruskal, scikit-posthocs dunn) are abstracted as function
parameters: the claims concern how the pipeline combines their outputs,
not the numerics inside them.
-/

namespace MosquitoStats

/-! ## Configuration constants (`src/config/analysis_config.py`) -/

/-- Config `CLUSTERING_K_RANGE = list(range(CLUSTERING_K_MIN, CLUSTERING_K_MAX + 1))`
with `CLUSTERING_K_MIN = 2`, `CLUSTERING_K_MAX = 10`. -/
def CLUSTERING_K_RANGE : List ℕ := [2, 3, 4, 5, 6, 7, 8, 9, 10]

/-- Config `LAG_RANGE = list(range(1, 13))`. -/
def LAG_RANGE : List ℕ := [1, 2, 3, 4, 5, 6, 7, 8, 9, 10, 11, 12]

/-- Config `LAG_VARIABLES`. -/
def LAG_VARIABLES : List String :=
  ["H_temp", "M_temp", "L_temp", "R", "NDVImean", "NDVImedian", "NDVIsum"]

/-- Config `PCA_VARIANCE_TARGET = 0.90`. -/
def PCA_VARIANCE_TARGET : ℚ := 9 / 10

/-- Config `BONFERRONI_ALPHA = 0.05`. -/
def BONFERRONI_ALPHA : ℚ := 1 / 20

/-- Config `UNIVERSAL_PREDICTOR_RHO_THRESHOLD = 0.3`. -/
def UNIVERSAL_PREDICTOR_RHO_THRESHOLD : ℚ := 3 / 10

/-- Config `UNIVERSAL_PREDICTOR_P_THRESHOLD = 0.001`. -/
def UNIVERSAL_PREDICTOR_P_THRESHOLD : ℚ := 1 / 1000

/-! ## List helpers shared by the embeddings -/

/-- A list lookup with default whose value does not depend on the default
when the index is in bounds. -/
theorem getD_irrel {α : Type} :
    ∀ (l : List α) (i : ℕ), i < l.length → ∀ (d d' : α), l.getD i d = l.getD i d' := by
  intro l
  induction l with
  | nil => intro i hi; simp at hi
  | cons a rest ih =>
    intro i hi d d'
    cases i with
    | zero => simp [List.getD]
    | succ j =>
      have hj : j < rest.length := by simpa using hi
      simpa [List.getD] using ih j hj d d'

/-- Indexing a mapped list with an arbitrary default, in bounds. -/
theorem getD_map_of_lt {α β : Type} (f : α → β) :
    ∀ (l : List α) (i : ℕ), i < l.length → ∀ (d : β) (d' : α),
      (l.map f).getD i d = f (l.getD i d') := by
  intro l
  induction l with
  | nil => intro i hi; simp at hi
  | cons a rest ih =>
    intro i hi d d'
    cases i with
    | zero => simp [List.getD]
    | succ j =>
      have hj : j < rest.length := by simpa using hi
      simpa [List.getD] using ih j hj d d'

/-! ## First-maximum index (pandas `Series.idxmax`)

`metrics_df['silhouette'].idxmax()` in `_optimize_clustering` returns the
positional index of the maximum silhouette value, keeping the FIRST
occurrence on exact ties. -/

/-- Index of the first maximum of a list of rationals; `0` on the empty
list (pandas raises there, but the scanned k-range is never empty). -/
def idxmaxQ : List ℚ → ℕ
  | [] => 0
  | a :: rest =>
    let j := idxmaxQ rest
    if a < rest.getD j a then j + 1 else 0

theorem idxmaxQ_lt_length : ∀ (l : List ℚ), l ≠ [] → idxmaxQ l < l.length := by
  intro l
  induction l with
  | nil => intro h; exact absurd rfl h
  | cons a rest ih =>
    intro _
    by_cases hr : rest = []
    · subst hr; simp [idxmaxQ]
    · have hj := ih hr
      simp only [idxmaxQ]
      split
      · simpa using Nat.succ_lt_succ hj
      · simp

/-- The first-maximum index points at a maximum value. -/
theorem idxmaxQ_is_max :
    ∀ (l : List ℚ) (i : ℕ), i < l.length → l.getD i 0 ≤ l.getD (idxmaxQ l) 0 := by
  intro l
  induction l with
  | nil => intro i hi; simp at hi
  | cons a rest ih =>
    intro i hi
    by_cases hr : rest = []
    · subst hr
      simp only [List.length_cons, List.length_nil] at hi
      have : i = 0 := by omega
      subst this
      simp [idxmaxQ, List.getD]
    · have hjlen : idxmaxQ rest < rest.length := idxmaxQ_lt_length rest hr
      have hgd : rest.getD (idxmaxQ rest) a = rest.getD (idxmaxQ rest) 0 :=
        getD_irrel rest (idxmaxQ rest) hjlen a 0
      simp only [idxmaxQ]
      split
      · rename_i hlt
        rw [hgd] at hlt
        cases i with
        | zero =>
          simpa [List.getD] using le_of_lt hlt
        | succ m =>
          have hm : m < rest.length := by simpa using hi
          simpa [List.getD] using ih m hm
      · rename_i hge
        rw [hgd] at hge
        push_neg at hge
        cases i with
        | zero => simp [List.getD]
        | succ m =>
          have hm : m < rest.length := by simpa using hi
          have := ih m hm
          simp only [List.getD] at *
          simpa using le_trans this hge

/-- Entries strictly before the first-maximum index are strictly below the
maximum: ties keep the smallest index. -/
theorem idxmaxQ_first :
    ∀ (l : List ℚ) (i : ℕ), i < idxmaxQ l → l.getD i 0 < l.getD (idxmaxQ l) 0 := by
  intro l
  induction l with
  | nil => intro i hi; simp [idxmaxQ] at hi
  | cons a rest ih =>
    intro i hi
    by_cases hr : rest = []
    · subst hr; simp [idxmaxQ] at hi
    · have hjlen : idxmaxQ rest < rest.length := idxmaxQ_lt_length rest hr
      have hgd : rest.getD (idxmaxQ rest) a = rest.getD (idxmaxQ rest) 0 :=
        getD_irrel rest (idxmaxQ rest) hjlen a 0
      simp only [idxmaxQ] at hi ⊢
      split
      · rename_i hlt
        rw [if_pos hlt] at hi
        cases i with
        | zero =>
          have hlt0 : a < rest.getD (idxmaxQ rest) 0 := hgd ▸ hlt
          simpa [List.getD] using hlt0
        | succ m =>
          have hm : m < idxmaxQ rest := by omega
          simpa [List.getD] using ih m hm
      · rename_i hge
        rw [if_neg hge] at hi
        omega

/-- An in-bounds `getD` is a member of the list. -/
theorem getD_mem {α : Type} :
    ∀ (l : List α) (i : ℕ), i < l.length → ∀ (d : α), l.getD i d ∈ l := by
  intro l
  induction l with
  | nil => intro i hi; simp at hi
  | cons a rest ih =>
    intro i hi d
    cases i with
    | zero => simp [List.getD]
    | succ j =>
      have hj : j < rest.length := by simpa using hi
      simpa [List.getD] using Or.inr (ih j hj d)

/-- Every member of a list is an in-bounds `getD`. -/
theorem mem_getD {α : Type} :
    ∀ (l : List α) (a : α), a ∈ l → ∀ (d : α), ∃ i, i < l.length ∧ l.getD i d = a := by
  intro l
  induction l with
  | nil => intro a ha; simp at ha
  | cons b rest ih =>
    intro a ha d
    rcases List.mem_cons.mp ha with h | h
    · exact ⟨0, by simp, by simp [List.getD, h.symm]⟩
    · obtain ⟨i, hi, hgd⟩ := ih a h d
      exact ⟨i + 1, by simpa using hi, by simpa [List.getD] using hgd⟩

/-! ## Cluster Selector (`_optimize_clustering`, `pca_clustering_analyzer.py`)

For each `k` in `CLUSTERING_K_RANGE` the code runs a seeded KMeans and
computes the silhouette, Calinski-Harabasz and Davies-Bouldin scores of the
resulting labels; the scores are deterministic functions of `k` for the
fixed seeded input, abstracted here as `sil`, `cal`, `dav`.  The optimal
row is `metrics_df.loc[metrics_df['silhouette'].idxmax()]`. -/

/-- One row of `metrics_results` in `_optimize_clustering`. -/
structure ClusterMetricsRow where
  k : ℕ
  silhouette : ℚ
  calinski_harabasz : ℚ
  davies_bouldin : ℚ

/-- Default row used for the (never reached) out-of-bounds lookup. -/
def defaultRow : ClusterMetricsRow := ⟨0, 0, 0, 0⟩

/-- Result record of `_optimize_clustering`. -/
structure ClusteringResult where
  optimal_k : ℕ
  optimal_silhouette : ℚ
  optimal_calinski : ℚ
  optimal_davies : ℚ

/-- Shallow embedding of `_optimize_clustering`: build the metrics table
over `CLUSTERING_K_RANGE` in ascending order, then select the row at the
first-maximum index of the silhouette column. -/
def optimizeClustering (sil cal dav : ℕ → ℚ) : ClusteringResult :=
  let metrics_results := CLUSTERING_K_RANGE.map
    (fun k => ClusterMetricsRow.mk k (sil k) (cal k) (dav k))
  let optimal_idx := idxmaxQ (metrics_results.map (fun r => r.silhouette))
  let row := metrics_results.getD optimal_idx defaultRow
  ⟨row.k, row.silhouette, row.calinski_harabasz, row.davies_bouldin⟩

theorem optimizeClustering_map_sil (sil cal dav : ℕ → ℚ) :
    (CLUSTERING_K_RANGE.map
        (fun k => ClusterMetricsRow.mk k (sil k) (cal k) (dav k))).map
      (fun r => r.silhouette) = CLUSTERING_K_RANGE.map sil := by
  simp [List.map_map, Function.comp]

theorem idx_lt_K_RANGE_length (sil : ℕ → ℚ) :
    idxmaxQ (CLUSTERING_K_RANGE.map sil) < CLUSTERING_K_RANGE.length := by
  have hne : CLUSTERING_K_RANGE.map sil ≠ [] := by simp [CLUSTERING_K_RANGE]
  have h := idxmaxQ_lt_length _ hne
  simpa using h

theorem optimizeClustering_k_eq (sil cal dav : ℕ → ℚ) :
    (optimizeClustering sil cal dav).optimal_k
      = CLUSTERING_K_RANGE.getD (idxmaxQ (CLUSTERING_K_RANGE.map sil)) 0 := by
  simp only [optimizeClustering, optimizeClustering_map_sil]
  rw [getD_map_of_lt _ _ _ (idx_lt_K_RANGE_length sil) defaultRow 0]

theorem optimizeClustering_sil_eq (sil cal dav : ℕ → ℚ) :
    (optimizeClustering sil cal dav).optimal_silhouette
      = sil (CLUSTERING_K_RANGE.getD (idxmaxQ (CLUSTERING_K_RANGE.map sil)) 0) := by
  simp only [optimizeClustering, optimizeClustering_map_sil]
  rw [getD_map_of_lt _ _ _ (idx_lt_K_RANGE_length sil) defaultRow 0]

theorem K_RANGE_getD_eq : ∀ j ∈ List.range 9, CLUSTERING_K_RANGE.getD j 0 = j + 2 := by
  decide

/-- C1: for every PCA-reduced data matrix (whose per-k validation scores
are the deterministic functions `sil`, `cal`, `dav` of the seeded runs),
the Cluster Selector scans k ascending over 2..10 and returns as
`optimal_k` the smallest k whose silhouette attains the maximum over the
scanned range (first maximum kept on exact ties); the Calinski-Harabasz
and Davies-Bouldin scores have no influence on which k is selected. -/
theorem cluster_selector_first_max_silhouette (sil cal dav : ℕ → ℚ) :
    (optimizeClustering sil cal dav).optimal_k ∈ CLUSTERING_K_RANGE ∧
    (∀ k ∈ CLUSTERING_K_RANGE, sil k ≤ sil (optimizeClustering sil cal dav).optimal_k) ∧
    (∀ k ∈ CLUSTERING_K_RANGE,
        sil k = sil (optimizeClustering sil cal dav).optimal_k →
        (optimizeClustering sil cal dav).optimal_k ≤ k) ∧
    (∀ cal' dav' : ℕ → ℚ,
        (optimizeClustering sil cal' dav').optimal_k
          = (optimizeClustering sil cal dav).optimal_k) := by
  have hkeq := optimizeClustering_k_eq sil cal dav
  have hidx := idx_lt_K_RANGE_length sil
  set idx := idxmaxQ (CLUSTERING_K_RANGE.map sil) with hidxdef
  have h9 : CLUSTERING_K_RANGE.length = 9 := by decide
  have hsil_at : ∀ i, i < CLUSTERING_K_RANGE.length →
      (CLUSTERING_K_RANGE.map sil).getD i 0 = sil (CLUSTERING_K_RANGE.getD i 0) := by
    intro i hi
    exact getD_map_of_lt sil _ i hi 0 0
  refine ⟨?_, ?_, ?_, ?_⟩
  · rw [hkeq]
    exact getD_mem _ idx hidx 0
  · intro k hk
    obtain ⟨i, hi, hgd⟩ := mem_getD _ k hk 0
    have hmax := idxmaxQ_is_max (CLUSTERING_K_RANGE.map sil) i (by simpa using hi)
    rw [hsil_at i hi, hsil_at idx hidx, hgd] at hmax
    rw [hkeq]
    exact hmax
  · intro k hk heq
    obtain ⟨i, hi, hgd⟩ := mem_getD _ k hk 0
    by_contra hcon
    push_neg at hcon
    have hi9 : i < 9 := h9 ▸ hi
    have hidx9 : idx < 9 := h9 ▸ hidx
    have hi2 : CLUSTERING_K_RANGE.getD i 0 = i + 2 :=
      K_RANGE_getD_eq i (List.mem_range.mpr hi9)
    have hidx2 : CLUSTERING_K_RANGE.getD idx 0 = idx + 2 :=
      K_RANGE_getD_eq idx (List.mem_range.mpr hidx9)
    rw [hkeq, hidx2] at hcon
    rw [← hgd, hi2] at hcon
    have hiidx : i < idx := by omega
    have hfirst := idxmaxQ_first (CLUSTERING_K_RANGE.map sil) i hiidx
    rw [hsil_at i hi, hsil_at idx hidx, hgd] at hfirst
    rw [hkeq] at heq
    exact absurd heq (ne_of_lt hfirst)
  · intro cal' dav'
    rw [optimizeClustering_k_eq sil cal' dav', hkeq]

/-- Witness for C1 at a concrete silhouette profile: silhouette strictly
decreasing in k, so the selector keeps k = 2. -/
theorem cluster_selector_first_max_silhouette_witness :
    (optimizeClustering (fun k => -(k : ℚ)) (fun _ => 0) (fun _ => 0)).optimal_k = 2 ∧
    (∀ k ∈ CLUSTERING_K_RANGE,
        -(k : ℚ) ≤ -(((optimizeClustering (fun k => -(k : ℚ)) (fun _ => 0)
            (fun _ => 0)).optimal_k : ℕ) : ℚ)) := by
  constructor
  · decide
  · exact (cluster_selector_first_max_silhouette
      (fun k => -(k : ℚ)) (fun _ => 0) (fun _ => 0)).2.1

/-! ## Dimensionality Reducer (`_perform_pca`, `pca_clustering_analyzer.py`)

The full decomposition `PCA(random_state=seed).fit(X_scaled)` is abstracted
by its outputs: the per-component explained-variance fractions
(`explained_variance_ratio_`, modelled as `vs : List ℚ`) and the full score
matrix (`Xfull`, one row per sample, one entry per component).  The code
computes `cumvar = np.cumsum(vs)` and selects
`n_components = np.argmax(cumvar >= target) + 1`, then refits keeping that
many components, which keeps the first `n_components` score columns. -/

/-- Cumulative sums with an accumulator; `cumsumQ` mirrors `np.cumsum`. -/
def cumsumFrom (acc : ℚ) : List ℚ → List ℚ
  | [] => []
  | a :: rest => (acc + a) :: cumsumFrom (acc + a) rest

/-- Mirrors `np.cumsum` on a rational vector. -/
def cumsumQ (l : List ℚ) : List ℚ := cumsumFrom 0 l

theorem cumsumFrom_length : ∀ (l : List ℚ) (acc : ℚ), (cumsumFrom acc l).length = l.length := by
  intro l
  induction l with
  | nil => intro acc; simp [cumsumFrom]
  | cons a rest ih => intro acc; simp [cumsumFrom, ih]

theorem cumsumFrom_getD :
    ∀ (l : List ℚ) (acc : ℚ) (i : ℕ), i < l.length →
      (cumsumFrom acc l).getD i 0 = acc + (l.take (i + 1)).sum := by
  intro l
  induction l with
  | nil => intro acc i hi; simp at hi
  | cons a rest ih =>
    intro acc i hi
    cases i with
    | zero => simp [cumsumFrom, List.getD]
    | succ j =>
      have hj : j < rest.length := by simpa using hi
      have := ih (acc + a) j hj
      simp only [cumsumFrom, List.getD] at *
      rw [List.take_succ_cons, List.sum_cons]
      simpa [add_assoc] using this

theorem cumsumQ_getD (l : List ℚ) (i : ℕ) (hi : i < l.length) :
    (cumsumQ l).getD i 0 = (l.take (i + 1)).sum := by
  simpa using cumsumFrom_getD l 0 i hi

/-- Index of the first `true` in a boolean list, `none` when there is no
`true`.  Mirrors the behavior of `np.argmax` on a boolean vector via
`argmaxBool` below: the first `True` wins, and an all-`False` vector
yields index `0`. -/
def firstTrue : List Bool → Option ℕ
  | [] => none
  | b :: rest => if b then some 0 else (firstTrue rest).map (· + 1)

/-- Mirrors `np.argmax` on a boolean vector. -/
def argmaxBool (l : List Bool) : ℕ := (firstTrue l).getD 0

theorem firstTrue_none :
    ∀ (l : List Bool), firstTrue l = none → ∀ b ∈ l, b = false := by
  intro l
  induction l with
  | nil => intro _ b hb; simp at hb
  | cons a rest ih =>
    intro h b hb
    by_cases ha : a = true
    · simp [firstTrue, ha] at h
    · simp only [firstTrue, if_neg ha] at h
      have h' : firstTrue rest = none := by
        cases hfr : firstTrue rest with
        | none => rfl
        | some i => rw [hfr] at h; simp at h
      rcases List.mem_cons.mp hb with rfl | hmem
      · simpa using ha
      · exact ih h' b hmem

theorem firstTrue_some :
    ∀ (l : List Bool) (i : ℕ), firstTrue l = some i →
      i < l.length ∧ l.getD i false = true ∧ ∀ j, j < i → l.getD j false = false := by
  intro l
  induction l with
  | nil => intro i h; simp [firstTrue] at h
  | cons a rest ih =>
    intro i h
    by_cases ha : a = true
    · simp only [firstTrue, if_pos ha] at h
      obtain rfl : i = 0 := by simpa using h.symm
      exact ⟨by simp, by simpa [List.getD], by intro j hj; omega⟩
    · simp only [firstTrue, if_neg ha] at h
      rcases Option.map_eq_some.mp h with ⟨i', hi', rfl⟩
      obtain ⟨hlen, hval, hmin⟩ := ih i' hi'
      refine ⟨by simpa using hlen, by simpa [List.getD] using hval, ?_⟩
      intro j hj
      cases j with
      | zero => simpa [List.getD] using ha
      | succ m =>
        have hm : m < i' := by omega
        simpa [List.getD] using hmin m hm

/-- Component count of `_perform_pca`:
`np.argmax(np.cumsum(vs) >= target) + 1`. -/
def nComponentsTarget (vs : List ℚ) (target : ℚ) : ℕ :=
  argmaxBool ((cumsumQ vs).map (fun c => decide (target ≤ c))) + 1

/-- Embedding of `_perform_pca`: select the component count for the variance target,
then keep that many score columns of the full decomposition. -/
def performPCA (Xfull : List (List ℚ)) (vs : List ℚ) (target : ℚ) :
    ℕ × List (List ℚ) :=
  let n := nComponentsTarget vs target
  (n, Xfull.map (fun row => row.take n))

/-- When some prefix reaches the target, `nComponentsTarget` is the least
component count `C ≥ 1` whose cumulative explained variance reaches the
target. -/
theorem nComponentsTarget_least (vs : List ℚ) (t : ℚ)
    (h : ∃ i, i < vs.length ∧ t ≤ (vs.take (i + 1)).sum) :
    1 ≤ nComponentsTarget vs t ∧ nComponentsTarget vs t ≤ vs.length ∧
    t ≤ (vs.take (nComponentsTarget vs t)).sum ∧
    ∀ m, 1 ≤ m → t ≤ (vs.take m).sum → nComponentsTarget vs t ≤ m := by
  obtain ⟨i, hi, hsum⟩ := h
  have hclen : (cumsumQ vs).length = vs.length := cumsumFrom_length vs 0
  have hblen : ((cumsumQ vs).map (fun c => decide (t ≤ c))).length = vs.length := by
    simp [hclen]
  have hbl_at : ∀ j, j < vs.length →
      ((cumsumQ vs).map (fun c => decide (t ≤ c))).getD j false
        = decide (t ≤ (vs.take (j + 1)).sum) := by
    intro j hj
    have hj' : j < (cumsumQ vs).length := by rw [hclen]; exact hj
    rw [getD_map_of_lt (fun c => decide (t ≤ c)) (cumsumQ vs) j hj' false 0,
      cumsumQ_getD vs j hj]
  have hne : firstTrue ((cumsumQ vs).map (fun c => decide (t ≤ c))) ≠ none := by
    intro hnone
    have hilen : i < ((cumsumQ vs).map (fun c => decide (t ≤ c))).length := by
      rw [hblen]; exact hi
    have hmem := getD_mem _ i hilen false
    have := firstTrue_none _ hnone _ hmem
    rw [hbl_at i hi] at this
    simp [hsum] at this
  obtain ⟨i0, hfst⟩ := Option.ne_none_iff_exists'.mp hne
  obtain ⟨hi0len, hi0val, hi0min⟩ := firstTrue_some _ i0 hfst
  have hi0vs : i0 < vs.length := hblen ▸ hi0len
  have hn : nComponentsTarget vs t = i0 + 1 := by
    simp [nComponentsTarget, argmaxBool, hfst]
  rw [hbl_at i0 hi0vs] at hi0val
  refine ⟨by omega, by omega, ?_, ?_⟩
  · rw [hn]
    exact of_decide_eq_true hi0val
  · intro m hm1 hmsum
    by_cases hmlen : vs.length < m
    · omega
    · push_neg at hmlen
      have hm1lt : m - 1 < vs.length := by omega
      by_contra hcon
      push_neg at hcon
      have hlt : m - 1 < i0 := by omega
      have := hi0min (m - 1) hlt
      rw [hbl_at (m - 1) hm1lt] at this
      have hm' : m - 1 + 1 = m := by omega
      rw [hm'] at this
      simp [hmsum] at this

/-- C2: for every standardized input matrix on which some prefix of
components reaches the variance target, the selected component count is
the smallest `C ≥ 1` with cumulative explained-variance of the first `C`
components at least the configured 0.90 target, and every row of the
reduced matrix has exactly `C` entries. -/
theorem dimensionality_reducer_component_count (Xfull : List (List ℚ)) (vs : List ℚ)
    (hreach : ∃ i, i < vs.length ∧ PCA_VARIANCE_TARGET ≤ (vs.take (i + 1)).sum)
    (hw : ∀ row ∈ Xfull, row.length = vs.length) :
    1 ≤ (performPCA Xfull vs PCA_VARIANCE_TARGET).1 ∧
    PCA_VARIANCE_TARGET ≤ (vs.take (performPCA Xfull vs PCA_VARIANCE_TARGET).1).sum ∧
    (∀ m, 1 ≤ m → PCA_VARIANCE_TARGET ≤ (vs.take m).sum →
        (performPCA Xfull vs PCA_VARIANCE_TARGET).1 ≤ m) ∧
    ∀ row ∈ (performPCA Xfull vs PCA_VARIANCE_TARGET).2,
      row.length = (performPCA Xfull vs PCA_VARIANCE_TARGET).1 := by
  obtain ⟨h1, hlen, hsum, hmin⟩ := nComponentsTarget_least vs PCA_VARIANCE_TARGET hreach
  refine ⟨h1, hsum, hmin, ?_⟩
  intro row hrow
  simp only [performPCA, List.mem_map] at hrow
  obtain ⟨r, hr, rfl⟩ := hrow
  simp only [performPCA]
  rw [List.length_take, hw r hr]
  omega

/-- Witness for C2 on a concrete decomposition: explained-variance
fractions (1/2, 2/5, 1/10) reach 0.90 first at C = 2. -/
theorem dimensionality_reducer_component_count_witness :
    (∃ i, i < ([1/2, 2/5, 1/10] : List ℚ).length ∧
        PCA_VARIANCE_TARGET ≤ (([1/2, 2/5, 1/10] : List ℚ).take (i + 1)).sum) ∧
    (performPCA ([[1, 2, 3], [4, 5, 6]] : List (List ℚ))
        [1/2, 2/5, 1/10] PCA_VARIANCE_TARGET).1 = 2 ∧
    ∀ row ∈ (performPCA ([[1, 2, 3], [4, 5, 6]] : List (List ℚ))
        [1/2, 2/5, 1/10] PCA_VARIANCE_TARGET).2,
      row.length = (performPCA ([[1, 2, 3], [4, 5, 6]] : List (List ℚ))
        [1/2, 2/5, 1/10] PCA_VARIANCE_TARGET).1 := by
  refine ⟨⟨1, by decide, by norm_num [PCA_VARIANCE_TARGET]⟩,
    by norm_num [performPCA, nComponentsTarget, argmaxBool, cumsumQ, cumsumFrom,
      firstTrue, PCA_VARIANCE_TARGET], ?_⟩
  exact (dimensionality_reducer_component_count _ _
    ⟨1, by decide, by norm_num [PCA_VARIANCE_TARGET]⟩ (by decide)).2.2.2

/-- C8: for a fixed decomposition, the selected component count is
monotone in the variance target: raising the target never decreases the
count, as long as the higher target is reachable. -/
theorem pca_component_count_monotone (vs : List ℚ) (t1 t2 : ℚ) (h12 : t1 ≤ t2)
    (h2 : ∃ i, i < vs.length ∧ t2 ≤ (vs.take (i + 1)).sum) :
    nComponentsTarget vs t1 ≤ nComponentsTarget vs t2 := by
  obtain ⟨i, hi, hsum⟩ := h2
  have h1 : ∃ i, i < vs.length ∧ t1 ≤ (vs.take (i + 1)).sum :=
    ⟨i, hi, le_trans h12 hsum⟩
  obtain ⟨h2one, _, h2sum, _⟩ := nComponentsTarget_least vs t2 ⟨i, hi, hsum⟩
  obtain ⟨_, _, _, h1min⟩ := nComponentsTarget_least vs t1 h1
  exact h1min _ h2one (le_trans h12 h2sum)

/-- Witness for C8: raising the target from 0.80 to 0.95 moves the
selected count from 2 to 3 on the fractions (1/2, 2/5, 1/10). -/
theorem pca_component_count_monotone_witness :
    ((4 : ℚ) / 5 ≤ 19 / 20) ∧
    (∃ i, i < ([1/2, 2/5, 1/10] : List ℚ).length ∧
        (19 : ℚ) / 20 ≤ (([1/2, 2/5, 1/10] : List ℚ).take (i + 1)).sum) ∧
    nComponentsTarget [1/2, 2/5, 1/10] (4/5) = 2 ∧
    nComponentsTarget [1/2, 2/5, 1/10] (19/20) = 3 ∧
    nComponentsTarget [1/2, 2/5, 1/10] (4/5)
      ≤ nComponentsTarget [1/2, 2/5, 1/10] (19/20) := by
  refine ⟨by norm_num, ⟨2, by decide, by norm_num⟩,
    by norm_num [nComponentsTarget, argmaxBool, cumsumQ, cumsumFrom, firstTrue],
    by norm_num [nComponentsTarget, argmaxBool, cumsumQ, cumsumFrom, firstTrue], ?_⟩
  exact pca_component_count_monotone _ _ _ (by norm_num) ⟨2, by decide, by norm_num⟩

/-! ## Bonferroni correction (`bonferroni_correction`, `base_analyzer.py`)

Python computes `corrected_alpha = alpha / n_tests` with
`n_tests = len(p_values)` and `significant = np.array(p_values) < corrected_alpha`
(strict comparison).  With an empty input the division by zero raises an
unhandled `ZeroDivisionError` (there is no try/except anywhere on this
path), modelled as `none`. -/

/-- Shallow embedding of `bonferroni_correction`. -/
def bonferroni_correction (p_values : List ℚ) (alpha : ℚ) : Option (ℚ × List Bool) :=
  if p_values.length = 0 then none
  else
    let corrected_alpha := alpha / (p_values.length : ℚ)
    some (corrected_alpha, p_values.map (fun p => decide (p < corrected_alpha)))

/-- C3: for every non-empty collection of raw p-values at alpha = 0.05,
the corrected threshold is exactly 0.05 divided by the number of candidate
features, and a feature is flagged significant if and only if its raw
p-value is strictly below that threshold. -/
theorem bonferroni_threshold_strict (l : List ℚ) (h : l ≠ []) :
    bonferroni_correction l BONFERRONI_ALPHA
      = some (BONFERRONI_ALPHA / (l.length : ℚ),
          l.map (fun p => decide (p < BONFERRONI_ALPHA / (l.length : ℚ)))) ∧
    ∀ i, i < l.length →
      ((l.map (fun p => decide (p < BONFERRONI_ALPHA / (l.length : ℚ)))).getD i false = true
        ↔ l.getD i 0 < BONFERRONI_ALPHA / (l.length : ℚ)) := by
  have hlen : l.length ≠ 0 := by simpa using h
  constructor
  · simp [bonferroni_correction, hlen]
  · intro i hi
    rw [getD_map_of_lt (fun p => decide (p < BONFERRONI_ALPHA / (l.length : ℚ)))
      l i hi false 0]
    simp

/-- Witness for C3: ten p-values of which exactly the three below
0.05/10 = 0.005 are flagged. -/
theorem bonferroni_threshold_strict_witness :
    ([1/1000, 3/1000, 1/250, 1/2, 1, 1/4, 2/5, 9/10, 7/10, 3/5] : List ℚ) ≠ [] ∧
    bonferroni_correction
        [1/1000, 3/1000, 1/250, 1/2, 1, 1/4, 2/5, 9/10, 7/10, 3/5] BONFERRONI_ALPHA
      = some (1/200,
          [true, true, true, false, false, false, false, false, false, false]) ∧
    (∀ i, i < ([1/1000, 3/1000, 1/250, 1/2, 1, 1/4, 2/5, 9/10, 7/10, 3/5] : List ℚ).length →
      ((([1/1000, 3/1000, 1/250, 1/2, 1, 1/4, 2/5, 9/10, 7/10, 3/5] : List ℚ).map
          (fun p => decide (p < BONFERRONI_ALPHA /
            (([1/1000, 3/1000, 1/250, 1/2, 1, 1/4, 2/5, 9/10, 7/10, 3/5] : List ℚ).length : ℚ)))).getD i false = true
        ↔ ([1/1000, 3/1000, 1/250, 1/2, 1, 1/4, 2/5, 9/10, 7/10, 3/5] : List ℚ).getD i 0
            < BONFERRONI_ALPHA /
              (([1/1000, 3/1000, 1/250, 1/2, 1, 1/4, 2/5, 9/10, 7/10, 3/5] : List ℚ).length : ℚ))) := by
  refine ⟨by simp, by norm_num [bonferroni_correction, BONFERRONI_ALPHA], ?_⟩
  exact (bonferroni_threshold_strict _ (by simp)).2

/-- C9: with an empty candidate feature set the significance-correction
step does not recover: `alpha / len(p_values)` raises `ZeroDivisionError`
(the failure value `none` of the embedding), so the claimed local
DataError recovery does not happen in the code. -/
theorem bonferroni_empty_input_fails :
    bonferroni_correction ([] : List ℚ) BONFERRONI_ALPHA = none := rfl

/-! ## Group Significance Tester (`_test_cluster_outcome_relationships`,
`pca_clustering_analyzer.py`)

For one outcome column, the rows are (cluster label, optional outcome
value); `stats.kruskal` on the per-cluster groups and
`posthoc_dunn(df_test, ..., p_adjust='bonferroni')` on the NaN-dropped
frame are abstracted as `kruskalFn` and `dunnFn`. -/

/-- Result of one outcome's pass: H statistic, omnibus p-value, and the
optional Dunn pairwise matrix (`None` in Python when the omnibus test is
not significant). -/
structure OutcomeTest where
  kruskal_h : ℚ
  kruskal_p : ℚ
  dunn_pvalues : Option (List (List ℚ))

/-- Shallow embedding of the per-target body of
`_test_cluster_outcome_relationships`. -/
def testClusterOutcome (kruskalFn : List (List ℚ) → ℚ × ℚ)
    (dunnFn : List (ℕ × ℚ) → List (List ℚ))
    (df : List (ℕ × Option ℚ)) (optimal_k : ℕ) : OutcomeTest :=
  let groups := (List.range optimal_k).map
    (fun i => (df.filter (fun r => r.1 == i)).filterMap (fun r => r.2))
  let hp := kruskalFn groups
  let df_test := df.filterMap (fun r => r.2.map (fun v => (r.1, v)))
  { kruskal_h := hp.1
    kruskal_p := hp.2
    dunn_pvalues := if hp.2 < 1/20 then some (dunnFn df_test) else none }

/-- C5: the Dunn pairwise matrix is computed if and only if the
Kruskal-Wallis omnibus p-value is strictly below 0.05; otherwise the
stored pairwise result is the explicit not-run marker `none` (Python
`None`), never a matrix of zeros or NaNs. -/
theorem group_significance_dunn_conditional (kruskalFn : List (List ℚ) → ℚ × ℚ)
    (dunnFn : List (ℕ × ℚ) → List (List ℚ))
    (df : List (ℕ × Option ℚ)) (k : ℕ) :
    ((testClusterOutcome kruskalFn dunnFn df k).dunn_pvalues
        = some (dunnFn (df.filterMap (fun r => r.2.map (fun v => (r.1, v)))))
      ↔ (testClusterOutcome kruskalFn dunnFn df k).kruskal_p < 1/20) ∧
    ((testClusterOutcome kruskalFn dunnFn df k).dunn_pvalues = none
      ↔ ¬ (testClusterOutcome kruskalFn dunnFn df k).kruskal_p < 1/20) := by
  simp only [testClusterOutcome]
  by_cases hp :
      (kruskalFn ((List.range k).map
        (fun i => (df.filter (fun r => r.1 == i)).filterMap (fun r => r.2)))).2 < 1/20
  · simp [hp]
  · simp [hp]

/-- Witness for C5: with omnibus p = 0.10 the matrix slot is `none`; with
omnibus p = 0.01 it is the computed Dunn matrix. -/
theorem group_significance_dunn_conditional_witness :
    (testClusterOutcome (fun _ => (2, 1/10)) (fun _ => [[0]])
        [(0, some 1), (1, some 2)] 2).dunn_pvalues = none ∧
    (testClusterOutcome (fun _ => (2, 1/100)) (fun _ => [[0]])
        [(0, some 1), (1, some 2)] 2).dunn_pvalues = some [[0]] := by
  constructor
  · exact (group_significance_dunn_conditional (fun _ => (2, 1/10)) (fun _ => [[0]])
      [(0, some 1), (1, some 2)] 2).2.mpr (by norm_num [testClusterOutcome])
  · exact (group_significance_dunn_conditional (fun _ => (2, 1/100)) (fun _ => [[0]])
      [(0, some 1), (1, some 2)] 2).1.mpr (by norm_num [testClusterOutcome])

/-! ## Correlation Engine (`calculate_correlation`, `base_analyzer.py`)

The dataframe is modelled as a column lookup from column name to the
column of optional values (NaN-as-none); all columns have the row count of
the frame.  For each feature the code builds
`valid_mask = df[[feature, target]].notna().all(axis=1)` — a
pairwise-complete mask over that feature and the target only — and calls
`stats.spearmanr` (abstracted as `corrFn`) on the masked pair of columns;
with zero valid rows it stores `np.nan` for both outputs, modelled as
`none`. -/

/-- Rows where both the feature and the target value are present. -/
def validPairs (xs ys : List (Option ℚ)) : List (ℚ × ℚ) :=
  (xs.zip ys).filterMap (fun p =>
    match p.1, p.2 with
    | some a, some b => some (a, b)
    | _, _ => none)

/-- The per-feature result entry of `calculate_correlation`. -/
def corrEntry (corrFn : List (ℚ × ℚ) → ℚ × ℚ)
    (df : String → List (Option ℚ)) (target f : String) : Option (ℚ × ℚ) :=
  let valid := validPairs (df f) (df target)
  if 0 < valid.length then some (corrFn valid) else none

/-- Shallow embedding of `calculate_correlation`: one (feature, result)
pair per candidate feature, in order. -/
def calculate_correlation (corrFn : List (ℚ × ℚ) → ℚ × ℚ)
    (df : String → List (Option ℚ)) (features : List String) (target : String) :
    List (String × Option (ℚ × ℚ)) :=
  features.map (fun f => (f, corrEntry corrFn df target f))

theorem lookup_map_self {β : Type} :
    ∀ (l : List String) (g : String → β) (f : String), f ∈ l →
      (l.map (fun x => (x, g x))).lookup f = some (g f) := by
  intro l
  induction l with
  | nil => intro g f hf; simp at hf
  | cons a rest ih =>
    intro g f hf
    by_cases hfa : f = a
    · subst hfa
      simp [List.lookup]
    · have : f ∈ rest := by
        rcases List.mem_cons.mp hf with h | h
        · exact absurd h hfa
        · exact h
      have hbeq : (f == a) = false := beq_eq_false_iff_ne.mpr hfa
      simp [List.lookup, hbeq, ih g f this]

/-- C7: each feature's coefficient and p-value are computed only over the
rows where that feature and the outcome are both non-null — so the entry
is unchanged under any change to the other columns — and a feature with
zero valid rows gets the undefined marker `none` (NaN in Python), never a
zero value. -/
theorem correlation_engine_pairwise_complete (corrFn : List (ℚ × ℚ) → ℚ × ℚ)
    (df1 df2 : String → List (Option ℚ)) (features : List String) (target f : String)
    (hf : f ∈ features) (hcol : df1 f = df2 f) (htgt : df1 target = df2 target) :
    (calculate_correlation corrFn df1 features target).lookup f
      = (calculate_correlation corrFn df2 features target).lookup f ∧
    (calculate_correlation corrFn df1 features target).lookup f
      = some (if validPairs (df1 f) (df1 target) = [] then none
          else some (corrFn (validPairs (df1 f) (df1 target)))) := by
  have h1 := lookup_map_self features (corrEntry corrFn df1 target) f hf
  have h2 := lookup_map_self features (corrEntry corrFn df2 target) f hf
  have hsame : corrEntry corrFn df1 target f = corrEntry corrFn df2 target f := by
    simp only [corrEntry, hcol, htgt]
  have hform : corrEntry corrFn df1 target f
      = if validPairs (df1 f) (df1 target) = [] then none
          else some (corrFn (validPairs (df1 f) (df1 target))) := by
    cases hv : validPairs (df1 f) (df1 target) with
    | nil => simp [corrEntry, hv]
    | cons a rest => simp [corrEntry, hv]
  constructor
  · rw [calculate_correlation, calculate_correlation, h1, h2, hsame]
  · rw [calculate_correlation, h1, hform]

/-- Witness for C7 on a concrete three-row frame: feature `a` has two
valid rows (its own missing row is dropped), feature `b` has none and gets
the NaN marker, and the entries ignore every other column. -/
theorem correlation_engine_pairwise_complete_witness :
    ("b" : String) ∈ (["a", "b"] : List String) ∧
    (calculate_correlation (fun l => ((l.map Prod.fst).sum, 0))
        (fun c => if c = "a" then [some 1, none, some 5]
          else if c = "t" then [some 2, some 3, some 4] else [none, none, none])
        ["a", "b"] "t").lookup "a" = some (some (6, 0)) ∧
    (calculate_correlation (fun l => ((l.map Prod.fst).sum, 0))
        (fun c => if c = "a" then [some 1, none, some 5]
          else if c = "t" then [some 2, some 3, some 4] else [none, none, none])
        ["a", "b"] "t").lookup "b"
      = some (if validPairs ([none, none, none] : List (Option ℚ))
            [some 2, some 3, some 4] = [] then none
          else some ((fun l => ((l.map (Prod.fst (α := ℚ) (β := ℚ))).sum, (0 : ℚ)))
            (validPairs [none, none, none] [some 2, some 3, some 4]))) := by
  have hta : ("t" : String) ≠ "a" := by decide
  refine ⟨by simp,
    by norm_num [calculate_correlation, corrEntry, validPairs, List.lookup, hta,
      List.filterMap_cons], ?_⟩
  exact (correlation_engine_pairwise_complete (fun l => ((l.map Prod.fst).sum, 0))
    (fun c => if c = "a" then [some 1, none, some 5]
      else if c = "t" then [some 2, some 3, some 4] else [none, none, none])
    (fun c => if c = "a" then [some 1, none, some 5]
      else if c = "t" then [some 2, some 3, some 4] else [none, none, none])
    ["a", "b"] "t" "b" (by simp) rfl rfl).2

/-! ## Lag/Rolling Scanner (`_find_optimal_lags`, `lag_rolling_analyzer.py`)

For one variable and one feature family (simple lag or rolling window) the
row of per-offset Spearman correlations over `LAG_RANGE` is a length-12
vector with NaN for undefined results, modelled as `List (Option ℚ)`.
The code computes `abs_corrs = np.abs(lag_corrs)`; if not all NaN it takes
`optimal_idx = np.nanargmax(abs_corrs)` (NaNs skipped, first index kept on
exact ties), reports `LAG_RANGE[optimal_idx]` as the optimal week and the
signed `lag_corrs[optimal_idx]` as the optimal correlation; otherwise it
reports NaN for both.  The same block is inlined twice, for the simple
(lines 195-206) and the rolling (lines 209-223) families. -/

/-- The rational at position `i` of a NaN-as-none vector (0 outside). -/
def valAt (l : List (Option ℚ)) (i : ℕ) : ℚ := (l.getD i none).getD 0

/-- Mirrors `np.nanargmax(np.abs(l))`: first index of the maximum absolute
value among present entries, `none` when every entry is NaN. -/
def nanargmaxAbs : List (Option ℚ) → Option ℕ
  | [] => none
  | none :: rest => (nanargmaxAbs rest).map (· + 1)
  | some a :: rest =>
    match nanargmaxAbs rest with
    | none => some 0
    | some j => if |a| < |valAt rest j| then some (j + 1) else some 0

/-- The per-variable body of `_find_optimal_lags` for one family. -/
def findOptimalLag (corrs : List (Option ℚ)) : Option (ℕ × ℚ) :=
  (nanargmaxAbs corrs).map (fun i => (LAG_RANGE.getD i 0, valAt corrs i))

theorem nanargmaxAbs_eq_none :
    ∀ (l : List (Option ℚ)), nanargmaxAbs l = none ↔ ∀ x ∈ l, x = none := by
  intro l
  induction l with
  | nil => simp [nanargmaxAbs]
  | cons a rest ih =>
    cases a with
    | none =>
      simp only [nanargmaxAbs, Option.map_eq_none']
      constructor
      · intro h x hx
        rcases List.mem_cons.mp hx with rfl | hmem
        · rfl
        · exact (ih.mp h) x hmem
      · intro h
        exact ih.mpr (fun x hx => h x (List.mem_cons_of_mem _ hx))
    | some v =>
      constructor
      · intro h
        exfalso
        simp only [nanargmaxAbs] at h
        cases hr : nanargmaxAbs rest with
        | none => rw [hr] at h; simp at h
        | some j => rw [hr] at h; by_cases hc : |v| < |valAt rest j| <;> simp [hc] at h
      · intro h
        have := h (some v) (by simp)
        simp at this

theorem nanargmaxAbs_eq_some :
    ∀ (l : List (Option ℚ)) (i : ℕ), nanargmaxAbs l = some i →
      i < l.length ∧ l.getD i none = some (valAt l i) ∧
      ∀ x : ℚ, some x ∈ l → |x| ≤ |valAt l i| := by
  intro l
  induction l with
  | nil => intro i h; simp [nanargmaxAbs] at h
  | cons a rest ih =>
    intro i h
    cases a with
    | none =>
      simp only [nanargmaxAbs] at h
      rcases Option.map_eq_some.mp h with ⟨i', hi', rfl⟩
      obtain ⟨hlen, hval, hmax⟩ := ih i' hi'
      have hv : valAt (none :: rest) (i' + 1) = valAt rest i' := by
        simp [valAt, List.getD]
      refine ⟨by simpa using hlen, ?_, ?_⟩
      · rw [hv]
        simpa [List.getD] using hval
      · intro x hx
        rw [hv]
        rcases List.mem_cons.mp hx with hax | hmem
        · exact absurd hax.symm (by simp)
        · exact hmax x hmem
    | some v =>
      simp only [nanargmaxAbs] at h
      cases hr : nanargmaxAbs rest with
      | none =>
        rw [hr] at h
        simp only [Option.some.injEq] at h
        subst h
        have hall := (nanargmaxAbs_eq_none rest).mp hr
        refine ⟨by simp, by simp [valAt, List.getD], ?_⟩
        intro x hx
        rcases List.mem_cons.mp hx with hax | hmem
        · obtain rfl : x = v := by simpa using hax
          simp [valAt, List.getD]
        · exact absurd (hall _ hmem) (by simp)
      | some j =>
        rw [hr] at h
        have h' : (if |v| < |valAt rest j| then some (j + 1) else some 0)
            = some i := h
        obtain ⟨hlen, hval, hmax⟩ := ih j hr
        by_cases hc : |v| < |valAt rest j|
        · rw [if_pos hc] at h'
          simp only [Option.some.injEq] at h'
          subst h'
          have hv : valAt (some v :: rest) (j + 1) = valAt rest j := by
            simp [valAt, List.getD]
          refine ⟨by simpa using hlen, ?_, ?_⟩
          · rw [hv]
            simpa [List.getD] using hval
          · intro x hx
            rw [hv]
            rcases List.mem_cons.mp hx with hax | hmem
            · obtain rfl : x = v := by simpa using hax
              exact le_of_lt hc
            · exact hmax x hmem
        · rw [if_neg hc] at h'
          simp only [Option.some.injEq] at h'
          subst h'
          push_neg at hc
          have hv0 : valAt (some v :: rest) 0 = v := by simp [valAt, List.getD]
          refine ⟨by simp, by simp [valAt, List.getD], ?_⟩
          intro x hx
          rw [hv0]
          rcases List.mem_cons.mp hx with hax | hmem
          · obtain rfl : x = v := by simpa using hax
            exact le_refl _
          · exact le_trans (hmax x hmem) hc

theorem LAG_RANGE_getD_eq : ∀ j ∈ List.range 12, LAG_RANGE.getD j 0 = j + 1 := by
  decide

/-- C4: the reported optimal correlation's absolute value equals the
maximum absolute value among the non-NaN per-offset correlations scanned
for the variable, the reported optimal week is the offset attaining it
(entry `w` of the row is the signed optimal correlation), and when all
scanned correlations are NaN both outputs are the NaN marker `none`
rather than an arbitrary offset. -/
theorem lag_scanner_optimal_correlation (corrs : List (Option ℚ))
    (h12 : corrs.length = 12) :
    (findOptimalLag corrs = none ↔ ∀ x ∈ corrs, x = none) ∧
    ∀ w c, findOptimalLag corrs = some (w, c) →
      1 ≤ w ∧ w ≤ 12 ∧ corrs.getD (w - 1) none = some c ∧
      (some c ∈ corrs ∧ ∀ x : ℚ, some x ∈ corrs → |x| ≤ |c|) := by
  constructor
  · rw [findOptimalLag, Option.map_eq_none']
    exact nanargmaxAbs_eq_none corrs
  · intro w c hfound
    rw [findOptimalLag] at hfound
    rcases Option.map_eq_some.mp hfound with ⟨i, hi, heq⟩
    obtain ⟨hlen, hval, hmax⟩ := nanargmaxAbs_eq_some corrs i hi
    have hi12 : i < 12 := h12 ▸ hlen
    have hwk : LAG_RANGE.getD i 0 = i + 1 :=
      LAG_RANGE_getD_eq i (List.mem_range.mpr hi12)
    have hw : w = i + 1 := by
      have h1 : LAG_RANGE.getD i 0 = w := congrArg Prod.fst heq
      rw [hwk] at h1
      exact h1.symm
    have hc : c = valAt corrs i := by
      have h2 : valAt corrs i = c := congrArg Prod.snd heq
      exact h2.symm
    subst hw
    subst hc
    refine ⟨by omega, by omega, by simpa using hval, ?_, ?_⟩
    · have := hval
      exact this ▸ getD_mem corrs i hlen none
    · exact hmax

/-- Witness for C4: row (1, NaN, -3, 3, NaN×8); the first maximal
absolute value -3 sits at offset 3, so the scanner reports week 3 with
signed correlation -3. -/
theorem lag_scanner_optimal_correlation_witness :
    ([some 1, none, some (-3), some 3, none, none,
        none, none, none, none, none, none] : List (Option ℚ)).length = 12 ∧
    findOptimalLag [some 1, none, some (-3), some 3, none, none,
        none, none, none, none, none, none] = some (3, -3) ∧
    (∀ x : ℚ, some x ∈ ([some 1, none, some (-3), some 3, none, none,
        none, none, none, none, none, none] : List (Option ℚ)) → |x| ≤ |(-3 : ℚ)|) := by
  refine ⟨by decide,
    by norm_num [findOptimalLag, nanargmaxAbs, valAt, LAG_RANGE, List.getD], ?_⟩
  have h := (lag_scanner_optimal_correlation
    [some 1, none, some (-3), some 3, none, none,
      none, none, none, none, none, none] (by decide)).2 3 (-3)
    (by norm_num [findOptimalLag, nanargmaxAbs, valAt, LAG_RANGE, List.getD])
  exact h.2.2.2.2

/-! ## Cross-unit Comparator (`_identify_predictors`, `comparison_analyzer.py`)

For one outcome, each city either supplies a list of per-feature
(correlation, p-value) pairs (its `statistical` results) or supplies
nothing; `city_significant` keeps a feature set only for the cities that
supplied results.  Universal predictors are `set.intersection(*values)`;
city-specific predictors are the features present in 1 to 2 of the
per-city sets. -/

/-- The per-city "significant-and-strong" set:
`(np.abs(corr) > 0.3) & (pval < 0.001)`. -/
def citySignificant (stat : List (String × ℚ × ℚ)) : List String :=
  (stat.filter (fun r =>
    decide (UNIVERSAL_PREDICTOR_RHO_THRESHOLD < |r.2.1|) &&
    decide (r.2.2 < UNIVERSAL_PREDICTOR_P_THRESHOLD))).map (fun r => r.1)

/-- The per-city sets over exactly the cities that supplied results. -/
def collectCitySets (cities : List (Option (List (String × ℚ × ℚ)))) :
    List (List String) :=
  cities.filterMap (fun o => o.map citySignificant)

/-- Number of per-city sets containing a feature
(`len(cities_with_feature)` in the code). -/
def countSets (f : String) (sets : List (List String)) : ℕ :=
  (sets.filter (fun s => decide (f ∈ s))).length

/-- Embedding of `_identify_predictors` for one outcome: (universal predictors,
city-specific predictors, as the features they contain). -/
def identifyPredictors (sets : List (List String)) : List String × List String :=
  let all_features := sets.foldr (· ++ ·) []
  (all_features.filter (fun f => decide (∀ s ∈ sets, f ∈ s)),
   all_features.filter (fun f =>
     decide (1 ≤ countSets f sets ∧ countSets f sets ≤ 2)))

theorem mem_foldr_append {α : Type} :
    ∀ (sets : List (List α)) (f : α),
      f ∈ sets.foldr (· ++ ·) [] ↔ ∃ s ∈ sets, f ∈ s := by
  intro sets f
  induction sets with
  | nil => simp
  | cons s rest ih => simp [ih]

theorem countSets_pos_iff (f : String) (sets : List (List String)) :
    1 ≤ countSets f sets ↔ ∃ s ∈ sets, f ∈ s := by
  rw [countSets]
  constructor
  · intro h
    have : (sets.filter (fun s => decide (f ∈ s))) ≠ [] := by
      intro hnil
      rw [hnil] at h
      simp at h
    obtain ⟨s, hs⟩ := List.exists_mem_of_ne_nil _ this
    have := List.mem_filter.mp hs
    exact ⟨s, this.1, of_decide_eq_true this.2⟩
  · intro ⟨s, hs, hfs⟩
    have : s ∈ sets.filter (fun s => decide (f ∈ s)) :=
      List.mem_filter.mpr ⟨hs, decide_eq_true hfs⟩
    have hne : sets.filter (fun s => decide (f ∈ s)) ≠ [] := by
      intro hnil
      rw [hnil] at this
      simp at this
    have := List.length_pos.mpr hne
    omega

theorem countSets_all (f : String) (sets : List (List String))
    (h : ∀ s ∈ sets, f ∈ s) : countSets f sets = sets.length := by
  rw [countSets, List.filter_eq_self.mpr]
  intro s hs
  exact decide_eq_true (h s hs)

/-- C6: a feature is in a city's set iff both |rho| > 0.3 and p < 0.001
hold for it there; the universal predictor set is the intersection of the
per-city sets over exactly the cities that supplied results; a feature is
city-specific iff it lies in 1 or 2 of the per-city sets; hence with at
least 3 reporting cities, a feature significant-and-strong in exactly 2
is city-specific and not universal. -/
theorem crosscity_universal_vs_specific (stat : List (String × ℚ × ℚ))
    (cities : List (Option (List (String × ℚ × ℚ)))) (f g : String)
    (h3 : 3 ≤ (collectCitySets cities).length)
    (hg : countSets g (collectCitySets cities) = 2) :
    (f ∈ citySignificant stat ↔
      ∃ rho p, (f, rho, p) ∈ stat ∧ UNIVERSAL_PREDICTOR_RHO_THRESHOLD < |rho| ∧
        p < UNIVERSAL_PREDICTOR_P_THRESHOLD) ∧
    (f ∈ (identifyPredictors (collectCitySets cities)).1 ↔
      ∀ s ∈ collectCitySets cities, f ∈ s) ∧
    (f ∈ (identifyPredictors (collectCitySets cities)).2 ↔
      1 ≤ countSets f (collectCitySets cities) ∧
        countSets f (collectCitySets cities) ≤ 2) ∧
    (g ∈ (identifyPredictors (collectCitySets cities)).2 ∧
      g ∉ (identifyPredictors (collectCitySets cities)).1) := by
  set sets := collectCitySets cities with hsets
  have huniv : ∀ x : String,
      x ∈ (identifyPredictors sets).1 ↔ x ∈ sets.foldr (· ++ ·) [] ∧
        ∀ s ∈ sets, x ∈ s := by
    intro x
    simp [identifyPredictors, List.mem_filter]
  have hspec : ∀ x : String,
      x ∈ (identifyPredictors sets).2 ↔ x ∈ sets.foldr (· ++ ·) [] ∧
        1 ≤ countSets x sets ∧ countSets x sets ≤ 2 := by
    intro x
    simp [identifyPredictors, List.mem_filter]
  have hne : sets ≠ [] := by
    intro hnil
    rw [hnil] at h3
    simp at h3
  refine ⟨?_, ?_, ?_, ?_, ?_⟩
  · constructor
    · intro h
      simp only [citySignificant, List.mem_map] at h
      obtain ⟨r, hr, rfl⟩ := h
      have hmem := List.mem_filter.mp hr
      have hb := hmem.2
      simp only [Bool.and_eq_true, decide_eq_true_eq] at hb
      exact ⟨r.2.1, r.2.2, hmem.1, hb.1, hb.2⟩
    · intro ⟨rho, p, hmem, hrho, hp⟩
      simp only [citySignificant, List.mem_map]
      refine ⟨(f, rho, p), List.mem_filter.mpr ⟨hmem, ?_⟩, rfl⟩
      simp [hrho, hp]
  · rw [huniv f]
    constructor
    · intro h
      exact h.2
    · intro h
      obtain ⟨s, hs⟩ := List.exists_mem_of_ne_nil _ hne
      exact ⟨(mem_foldr_append sets f).mpr ⟨s, hs, h s hs⟩, h⟩
  · rw [hspec f]
    constructor
    · intro h
      exact h.2
    · intro h
      obtain ⟨s, hs, hfs⟩ := (countSets_pos_iff f sets).mp h.1
      exact ⟨(mem_foldr_append sets f).mpr ⟨s, hs, hfs⟩, h⟩
  · rw [hspec g]
    obtain ⟨s, hs, hgs⟩ := (countSets_pos_iff g sets).mp (by omega)
    exact ⟨(mem_foldr_append sets g).mpr ⟨s, hs, hgs⟩, by omega, by omega⟩
  · rw [huniv g]
    intro h
    have := countSets_all g sets h.2
    omega

/-- Witness for C6: three reporting cities (and one silent one); feature
`a` is significant-and-strong in exactly the first two, feature `b` in
all three. -/
theorem crosscity_universal_vs_specific_witness :
    3 ≤ (collectCitySets [some [("a", 1, 0), ("b", 1, 0)],
        some [("a", 1, 0), ("b", 1, 0)], some [("b", 1, 0)], none]).length ∧
    countSets "a" (collectCitySets [some [("a", 1, 0), ("b", 1, 0)],
        some [("a", 1, 0), ("b", 1, 0)], some [("b", 1, 0)], none]) = 2 ∧
    ("a" ∈ (identifyPredictors (collectCitySets [some [("a", 1, 0), ("b", 1, 0)],
        some [("a", 1, 0), ("b", 1, 0)], some [("b", 1, 0)], none])).2 ∧
      "a" ∉ (identifyPredictors (collectCitySets [some [("a", 1, 0), ("b", 1, 0)],
        some [("a", 1, 0), ("b", 1, 0)], some [("b", 1, 0)], none])).1) := by
  have hsig : citySignificant [("a", 1, 0), ("b", 1, 0)] = ["a", "b"] := by
    norm_num [citySignificant, UNIVERSAL_PREDICTOR_RHO_THRESHOLD,
      UNIVERSAL_PREDICTOR_P_THRESHOLD, List.filter]
  have hsig2 : citySignificant [("b", 1, 0)] = ["b"] := by
    norm_num [citySignificant, UNIVERSAL_PREDICTOR_RHO_THRESHOLD,
      UNIVERSAL_PREDICTOR_P_THRESHOLD, List.filter]
  have hcoll : collectCitySets [some [("a", 1, 0), ("b", 1, 0)],
      some [("a", 1, 0), ("b", 1, 0)], some [("b", 1, 0)], none]
        = [["a", "b"], ["a", "b"], ["b"]] := by
    simp [collectCitySets, hsig, hsig2]
  have hcount : countSets "a" (collectCitySets [some [("a", 1, 0), ("b", 1, 0)],
      some [("a", 1, 0), ("b", 1, 0)], some [("b", 1, 0)], none]) = 2 := by
    rw [hcoll]
    decide
  refine ⟨by rw [hcoll]; decide, hcount, ?_⟩
  exact (crosscity_universal_vs_specific [] _ "x" "a"
    (by rw [hcoll]; decide) hcount).2.2.2

/-! ## Week-to-column matching (`get_lag_features`, `data_loader.py`; and
`_analyze_lag_features`, `lag_rolling_analyzer.py`)

`get_lag_features` scans weeks 1..12 in ascending order and appends the
first present pattern (`{variable}_lag_{week}`, falling back to
`{variable}_lag{week}`), so its output is in ascending offset order.
`_analyze_lag_features` then matches a week to a column by the Python
substring test `f'{week}' in f` and keeps `matching_features[0]`. -/

/-- Whether the first list of characters is a leading piece of the
second. -/
def charsBeginWith : List Char → List Char → Bool
  | [], _ => true
  | _ :: _, [] => false
  | a :: as, b :: bs => a == b && charsBeginWith as bs

/-- Substring containment on character lists. -/
def containsSub : List Char → List Char → Bool
  | [], pattern => pattern.isEmpty
  | c :: rest, pattern => charsBeginWith pattern (c :: rest) || containsSub rest pattern

/-- The Python substring test `sub in s`. -/
def strContainsSub (s sub : String) : Bool := containsSub s.data sub.data

/-- Column name `{variable}_lag_{week}`. -/
def simpleLagName (v : String) (week : ℕ) : String :=
  v ++ "_lag_" ++ toString week

/-- Alternate column name `{variable}_lag{week}` (NDVI style). -/
def simpleLagNameAlt (v : String) (week : ℕ) : String :=
  v ++ "_lag" ++ toString week

/-- The column kept by `get_lag_features` for one week: the
`{variable}_lag_{week}` pattern when that column is present in the
dataframe, else the `{variable}_lag{week}` pattern when present, else
nothing. -/
def chosenLagCol (cols : List String) (v : String) (week : ℕ) : Option String :=
  if simpleLagName v week ∈ cols then some (simpleLagName v week)
  else if simpleLagNameAlt v week ∈ cols then some (simpleLagNameAlt v week)
  else none

/-- Shallow embedding of `get_lag_features(df, variable, lag_type='simple')`
over the dataframe's column list: scan weeks 1..12 ascending, appending
the week's recognized column when one is present. -/
def get_lag_features (cols : List String) (v : String) : List String :=
  LAG_RANGE.filterMap (chosenLagCol cols v)

/-- Embedding of the `_analyze_lag_features` column choice for one week:
`matching_features = [f for f in lag_features if f'{week}' in f]`,
keeping `matching_features[0]`. -/
def matchingFeature (lag_features : List String) (week : ℕ) : Option String :=
  (lag_features.filter (fun f => strContainsSub f (toString week))).head?

theorem filterMap_eq_map_getD {α β : Type} (f : α → Option β) (b : β) :
    ∀ (l : List α), (∀ u ∈ l, (f u).isSome = true) →
      l.filterMap f = l.map (fun u => (f u).getD b) := by
  intro l
  induction l with
  | nil => intro _; rfl
  | cons a rest ih =>
    intro h
    have ha := h a (by simp)
    obtain ⟨c, hc⟩ := Option.isSome_iff_exists.mp ha
    rw [List.filterMap_cons, List.map_cons, hc]
    simp only [Option.getD_some]
    rw [ih (fun u hu => h u (by simp [hu]))]

theorem take_getD_drop {α : Type} :
    ∀ (l : List α) (i : ℕ), i < l.length → ∀ d : α,
      l = l.take i ++ l.getD i d :: l.drop (i + 1) := by
  intro l
  induction l with
  | nil => intro i hi; simp at hi
  | cons a rest ih =>
    intro i hi d
    cases i with
    | zero => simp [List.getD]
    | succ j =>
      have hj : j < rest.length := by simpa using hi
      have hrest := ih j hj d
      have hgd : (a :: rest).getD (j + 1) d = rest.getD j d := by simp [List.getD]
      rw [List.take_succ_cons, hgd, List.drop_succ_cons, List.cons_append]
      exact congrArg (a :: ·) hrest

theorem head_filter_append {α : Type} (p : α → Bool) :
    ∀ (l1 : List α) (x : α) (l2 : List α),
      (∀ y ∈ l1, p y = false) → p x = true →
      ((l1 ++ x :: l2).filter p).head? = some x := by
  intro l1
  induction l1 with
  | nil =>
    intro x l2 _ hx
    simp [List.filter_cons, hx]
  | cons a l1 ih =>
    intro x l2 h hx
    have ha := h a (by simp)
    simp only [List.cons_append, List.filter_cons, ha, Bool.false_eq_true, if_false]
    exact ih x l2 (fun y hy => h y (by simp [hy])) hx

/-- Both recognized namings of the offset-w column contain the digits of
w, for every recognized variable. -/
theorem lag_name_self_contains :
    ∀ v ∈ LAG_VARIABLES, ∀ w ∈ LAG_RANGE,
      strContainsSub (simpleLagName v w) (toString w) = true ∧
      strContainsSub (simpleLagNameAlt v w) (toString w) = true := by
  decide

/-- Neither recognized naming of an earlier offset u < w contains the
digits of w, for every recognized variable (variable names hold no
digits, so only the offset digits can match). -/
theorem lag_name_earlier_no_contains :
    ∀ v ∈ LAG_VARIABLES, ∀ w ∈ LAG_RANGE, ∀ u ∈ LAG_RANGE, u < w →
      strContainsSub (simpleLagName v u) (toString w) = false ∧
      strContainsSub (simpleLagNameAlt v u) (toString w) = false := by
  decide

theorem LAG_RANGE_take_lt : ∀ w ∈ LAG_RANGE, ∀ u ∈ LAG_RANGE.take (w - 1), u < w := by
  decide

theorem LAG_RANGE_pos :
    ∀ w ∈ LAG_RANGE, 1 ≤ w ∧ w ≤ 12 ∧ LAG_RANGE.getD (w - 1) 0 = w := by
  decide

/-- C10: for every dataframe containing, for each week, a recognized
lag column of the variable (either the `{v}_lag_{w}` naming or the
`{v}_lag{w}` naming the NDVI variables use) and every week w in 1..12,
the column matched for week w is exactly the recognized offset-w column:
although the match tests only substring containment of the week number
(so the digits of w also occur in the names of lags 10, 11, 12),
`get_lag_features` returns the columns in ascending offset order, making
the first substring match for w always the offset-w column. -/
theorem lag_week_first_substring_match (cols : List String) (v : String)
    (hv : v ∈ LAG_VARIABLES)
    (hall : ∀ u ∈ LAG_RANGE,
      simpleLagName v u ∈ cols ∨ simpleLagNameAlt v u ∈ cols) :
    ∀ w ∈ LAG_RANGE,
      matchingFeature (get_lag_features cols v) w = chosenLagCol cols v w ∧
      (chosenLagCol cols v w = some (simpleLagName v w) ∨
        chosenLagCol cols v w = some (simpleLagNameAlt v w)) := by
  have hnames : ∀ u ∈ LAG_RANGE,
      chosenLagCol cols v u = some ((chosenLagCol cols v u).getD "") ∧
      ((chosenLagCol cols v u).getD "" = simpleLagName v u ∨
        (chosenLagCol cols v u).getD "" = simpleLagNameAlt v u) := by
    intro u hu
    rcases hall u hu with h | h
    · exact ⟨by simp [chosenLagCol, h], Or.inl (by simp [chosenLagCol, h])⟩
    · by_cases h1 : simpleLagName v u ∈ cols
      · exact ⟨by simp [chosenLagCol, h1], Or.inl (by simp [chosenLagCol, h1])⟩
      · exact ⟨by simp [chosenLagCol, h1, h], Or.inr (by simp [chosenLagCol, h1, h])⟩
  have hfeat : get_lag_features cols v
      = LAG_RANGE.map (fun u => (chosenLagCol cols v u).getD "") := by
    rw [get_lag_features]
    refine filterMap_eq_map_getD _ "" LAG_RANGE (fun u hu => ?_)
    rw [(hnames u hu).1]
    rfl
  intro w hw
  obtain ⟨hw1, hw12, hgdw⟩ := LAG_RANGE_pos w hw
  have hlenL : w - 1 < LAG_RANGE.length := by
    have : LAG_RANGE.length = 12 := by decide
    omega
  have hlen : w - 1
      < (LAG_RANGE.map (fun u => (chosenLagCol cols v u).getD "")).length := by
    simpa using hlenL
  have hgd : (LAG_RANGE.map
        (fun u => (chosenLagCol cols v u).getD "")).getD (w - 1) ""
      = (chosenLagCol cols v w).getD "" := by
    rw [getD_map_of_lt _ LAG_RANGE (w - 1) hlenL "" 0, hgdw]
  refine ⟨?_, (hnames w hw).1 ▸ (hnames w hw).2.imp (fun h => by rw [h])
    (fun h => by rw [h])⟩
  rw [matchingFeature, hfeat, (hnames w hw).1]
  have hsplit := take_getD_drop
    (LAG_RANGE.map (fun u => (chosenLagCol cols v u).getD "")) (w - 1) hlen ""
  rw [hgd] at hsplit
  rw [hsplit]
  apply head_filter_append
  · intro y hy
    rw [← List.map_take] at hy
    obtain ⟨u, hu, rfl⟩ := List.mem_map.mp hy
    have huL : u ∈ LAG_RANGE := List.take_subset _ _ hu
    have hulw : u < w := LAG_RANGE_take_lt w hw u hu
    obtain ⟨hf1, hf2⟩ := lag_name_earlier_no_contains v hv w hw u huL hulw
    rcases (hnames u huL).2 with h | h
    · rw [h]
      exact hf1
    · rw [h]
      exact hf2
  · obtain ⟨hs1, hs2⟩ := lag_name_self_contains v hv w hw
    rcases (hnames w hw).2 with h | h
    · rw [h]
      exact hs1
    · rw [h]
      exact hs2

/-- Witness for C10 exercising both recognized namings: on the NDVI-style
columns NDVImean_lag1..NDVImean_lag12, week 1 matches NDVImean_lag1 (not
NDVImean_lag10); on the underscore columns H_temp_lag_1..H_temp_lag_12,
week 2 matches H_temp_lag_2 (not H_temp_lag_12). -/
theorem lag_week_first_substring_match_witness :
    ("NDVImean" : String) ∈ LAG_VARIABLES ∧
    (∀ u ∈ LAG_RANGE,
      simpleLagName "NDVImean" u ∈ LAG_RANGE.map (simpleLagNameAlt "NDVImean") ∨
      simpleLagNameAlt "NDVImean" u ∈ LAG_RANGE.map (simpleLagNameAlt "NDVImean")) ∧
    matchingFeature (get_lag_features (LAG_RANGE.map (simpleLagNameAlt "NDVImean"))
      "NDVImean") 1 = some "NDVImean_lag1" ∧
    matchingFeature (get_lag_features (LAG_RANGE.map (simpleLagName "H_temp"))
      "H_temp") 2 = some "H_temp_lag_2" := by
  refine ⟨by decide, by decide, ?_, ?_⟩
  · have h := (lag_week_first_substring_match
      (LAG_RANGE.map (simpleLagNameAlt "NDVImean")) "NDVImean"
      (by decide) (by decide) 1 (by decide)).1
    rw [h]
    decide
  · have h := (lag_week_first_substring_match
      (LAG_RANGE.map (simpleLagName "H_temp")) "H_temp"
      (by decide) (by decide) 2 (by decide)).1
    rw [h]
    decide

end MosquitoStats
